import Mathlib

/-!
Verification of the `file-reader` repository (CSV file reader and Java-style
properties file reader, C++ headers `csv_file_reader.h` and
`properties_file_reader.h`) against its natural-language specification.

The C++ code is shallowly embedded: a text file is a list of lines, a line is
a `List Char` (the headers document ASCII-only input), the record stores are
lists, and each constructor is a recursive function over the list of lines
returning `Except`/`Option` where the C++ throws or runs into undefined
behaviour.  C `long`/`int` values are modelled as unbounded `Int` (overflow of
`atoi`/`atol` is itself undefined behaviour and out of scope), and C `double`
values produced by `atof` are modelled exactly as rationals `ℚ`.
-/

namespace FileReader

/-- Models C `isspace` in the default locale: space, tab, newline, vertical
tab, form feed, carriage return. -/
def isCSpace (c : Char) : Bool :=
  c = ' ' || c = '\t' || c = '\n' || c = '\x0b' || c = '\x0c' || c = '\r'

/-- Models the C++ test `c < 0` on a (signed) `char`: true exactly for bytes
with the high bit set.  The headers state that only ASCII is supported, so on
intended inputs this is always `false`, but the tests appear verbatim in the
source and are kept in the model. -/
def isNegChar (c : Char) : Bool :=
  128 ≤ c.toNat

/-! ## Tokenizer  (`csv_file_reader.h`, `Tokenizer::operator()`)

The C++ loop repeatedly searches for the next separator (`str.find(sep,
init_pos)`), pushes the substring before it, and finally pushes the tail
substring.  `tokenize` below is the structural translation: it builds the same
token list character by character; `tokenize_step` restates it in the
find/substring shape of the source loop. -/

/-- Models `str.find(sep, 0)` combined with the two `substr` calls of the
tokenizer loop: the prefix of `str` before the first occurrence of `sep`
together with the suffix after it, or `none` when `sep` does not occur. -/
def splitFirst (sep : Char) : List Char → Option (List Char × List Char)
  | [] => none
  | c :: cs =>
    if c = sep then some ([], cs)
    else (splitFirst sep cs).map (fun p => (c :: p.1, p.2))

/-- Models `Tokenizer::operator()`: splits `str` on every occurrence of `sep`,
preserving empty substrings; the final token runs to the end of the string. -/
def tokenize (str : List Char) (sep : Char) : List (List Char) :=
  match str with
  | [] => [[]]
  | c :: cs =>
    if c = sep then [] :: tokenize cs sep
    else
      match tokenize cs sep with
      | [] => [[c]]
      | t :: ts => (c :: t) :: ts

/-- Specification-side reassembly: interleaves the separator between the
tokens (`joinSep sep [t1, t2, t3] = t1 ++ sep :: t2 ++ sep :: t3`). -/
def joinSep (sep : Char) : List (List Char) → List Char
  | [] => []
  | [t] => t
  | t :: t2 :: ts => t ++ sep :: joinSep sep (t2 :: ts)

/-! ## Numeric decoding  (C library `atoi` / `atol` / `atof`)

The CSV reader and the properties reader decode numeric fields with the C
functions `atoi`, `atol` and `atof`.  These are not part of the repository;
they are modelled here after their C semantics on decimal input: skip leading
whitespace, an optional sign, then the longest numeric prefix, yielding 0 when
that prefix is empty.  (`atof`'s hexadecimal, infinity and NaN forms are not
modelled; `atoi`/`atol` differ only in overflow behaviour, which is undefined
and not modelled — both are `atoiM` on unbounded `Int`.) -/

/-- Consumes leading decimal digits, accumulating their value left to right.
Returns the accumulated value, the number of digits consumed and the rest. -/
def parseDigits : List Char → Nat → Nat → Nat × Nat × List Char
  | c :: cs, acc, n =>
    if '0' ≤ c ∧ c ≤ '9' then
      parseDigits cs (10 * acc + (c.toNat - '0'.toNat)) (n + 1)
    else (acc, n, c :: cs)
  | [], acc, n => (acc, n, [])

/-- Consumes an optional `'-'` or `'+'`; returns whether the value is negated
and the rest of the input. -/
def parseSign : List Char → Bool × List Char
  | [] => (false, [])
  | c :: cs =>
    if c = '-' then (true, cs) else if c = '+' then (false, cs) else (false, c :: cs)

/-- Model of C `atoi`/`atol`: optional whitespace, optional sign, leading
decimal digits; 0 when there are no digits.  Unbounded (overflow is UB). -/
def atoiM (s : List Char) : Int :=
  let p := parseSign (s.dropWhile isCSpace)
  let d := parseDigits p.2 0 0
  if p.1 then -(d.1 : Int) else (d.1 : Int)

/-- Model of C `atof` on decimal input: optional whitespace, optional sign,
digits with an optional fractional part, then an optional well-formed decimal
exponent; 0 when no digit occurs before the exponent.  Exact (rational)
arithmetic stands in for the `double` result. -/
def atofM (s : List Char) : ℚ :=
  let p := parseSign (s.dropWhile isCSpace)
  let d := parseDigits p.2 0 0
  let f :=
    match d.2.2 with
    | [] => ((0 : Nat), (0 : Nat), ([] : List Char))
    | c :: cs => if c = '.' then parseDigits cs 0 0 else (0, 0, c :: cs)
  if d.2.1 + f.2.1 = 0 then 0
  else
    let mant : ℚ := (d.1 : ℚ) + (f.1 : ℚ) / (10 : ℚ) ^ f.2.1
    let ex : Int :=
      match f.2.2 with
      | c :: cs =>
        if c = 'e' ∨ c = 'E' then
          let ps := parseSign cs
          let pd := parseDigits ps.2 0 0
          if pd.2.1 = 0 then 0
          else if ps.1 then -(pd.1 : Int) else (pd.1 : Int)
        else 0
      | [] => 0
    let v := mant * (10 : ℚ) ^ ex
    if p.1 then -v else v

/-! ## CSV readers  (`csv_file_reader.h`)

`CSVFileReader<TYPES...>` is the heterogeneous reader: one statically typed
column per template argument.  The supported column types (enforced by the
`static_assert` in `_copyToTuple`) are `std::string`, floating-point types and
integer types; they are embedded as the tag type `CType`, a decoded field as
`CVal`.  `CSVFileReader<TYPE>` is the homogeneous specialization; its records
are the raw token vectors (`_records.push_back(values)` stores the
`std::vector<std::string>` itself, which only instantiates for
`TYPE = std::string`), so its records are modelled as `List (List Char)`.

Reading the file is modelled by handing the constructor the list of lines the
`while (!file.eof()) getline(...)` loop produces; failure to open the file is
outside the model.  A constructor that throws is modelled by `Except.error`:
no store object exists in that case (and the source additionally runs
`_records.clear()` before throwing). -/

/-- Column type tags of the heterogeneous reader: `std::string`,
floating-point, or integer.  The source decodes integers with `atoi` or
`atol` depending on the width; both are `atoiM` here (they differ only in
overflow behaviour, which is undefined). -/
inductive CType
  | cstr
  | cflt
  | cint
deriving DecidableEq, Repr

/-- A decoded CSV field. -/
inductive CVal
  | vstr (s : List Char)
  | vflt (q : ℚ)
  | vint (z : Int)
deriving DecidableEq, Repr

/-- Models one step of `_copyToTuple`: decode one token at the declared
column type (`std::string` taken unchanged, floating point via `atof`,
integers via `atoi`/`atol`). -/
def decodeField : CType → List Char → CVal
  | .cstr, t => .vstr t
  | .cflt, t => .vflt (atofM t)
  | .cint, t => .vint (atoiM t)

/-- Models the whole of `_copyToTuple`: position `POS` of the record receives
token `POS` decoded at column type `POS` (called only when the token count
equals the number of column types). -/
def copyToTuple (tys : List CType) (toks : List (List Char)) : List CVal :=
  List.zipWith decodeField tys toks

/-- Models the line filter of both CSV constructors:
`line.length() == 0 || line[0] == '#' || line[0] == '!'`. -/
def skipLine : List Char → Bool
  | [] => true
  | c :: _ => c = '#' || c = '!'

/-- The data carried by the `std::range_error` thrown on a row-arity
mismatch: the message is built from `_records.size() + 1` (field `line`),
the token count of the offending line (`actual`) and the expected column
count (`expected`). -/
structure RowError where
  line : Nat
  actual : Nat
  expected : Nat
deriving DecidableEq, Repr

/-- Models the constructor loop of the heterogeneous
`CSVFileReader<TYPES...>`: skip blank/comment lines, tokenize, throw a
`RowError` when the token count differs from the number of column types
(after `_records.clear()`, hence the error carries no records), otherwise
decode into a record and append. `acc` is the current `_records`. -/
def hetConstruct (tys : List CType) (sep : Char) :
    List (List Char) → List (List CVal) → Except RowError (List (List CVal))
  | [], acc => .ok acc
  | l :: rest, acc =>
    if skipLine l then hetConstruct tys sep rest acc
    else
      let toks := tokenize l sep
      if toks.length ≠ tys.length then
        .error ⟨acc.length + 1, toks.length, tys.length⟩
      else
        hetConstruct tys sep rest (acc ++ [copyToTuple tys toks])

/-- Models `CSVFileReader<TYPES...>::size()`, i.e. `_records.size()`. -/
def hetSize (records : List (List CVal)) : Nat :=
  records.length

/-- Models `CSVFileReader<TYPES...>::cols()`, i.e. `sizeof...(TYPES)`. -/
def hetCols (tys : List CType) : Nat :=
  tys.length

/-- Models the constructor loop of the homogeneous `CSVFileReader<TYPE>`:
as `hetConstruct`, except that the expected column count `n` is a runtime
value, and when `n` is the sentinel `0` and no record has been accumulated
yet it is first set to the token count of the current line
(`if (!_records.size() && !numValues) numValues = values.size();`). -/
def homConstruct (sep : Char) :
    Nat → List (List Char) → List (List (List Char)) →
    Except RowError (List (List (List Char)))
  | _, [], acc => .ok acc
  | n, l :: rest, acc =>
    if skipLine l then homConstruct sep n rest acc
    else
      let toks := tokenize l sep
      let n' := if acc.length = 0 ∧ n = 0 then toks.length else n
      if toks.length ≠ n' then
        .error ⟨acc.length + 1, toks.length, n'⟩
      else
        homConstruct sep n' rest (acc ++ [toks])

/-- Models `CSVFileReader<TYPE>::size()`. -/
def homSize (records : List (List (List Char))) : Nat :=
  records.length

/-- Models `CSVFileReader<TYPE>::cols()`, i.e. `_records[0].size()`.  The
source indexes record 0 unconditionally; the out-of-bounds access on an
empty store is made explicit by `Option`: `none` is the case in which
`operator[]` has undefined behaviour. -/
def homCols (records : List (List (List Char))) : Option Nat :=
  (records.get? 0).map List.length

/-- The column count a homogeneous store is validated against: the explicit
constructor argument when nonzero, otherwise the token count of the first
non-blank, non-comment line (`none` when neither exists). -/
def establishedCols (sep : Char) (n : Nat) (lines : List (List Char)) : Option Nat :=
  if n ≠ 0 then some n
  else ((lines.filter (fun l => !skipLine l)).head?).map
    (fun l => (tokenize l sep).length)

/-! ## Properties reader  (`properties_file_reader.h`)

The constructor scans each line with three index loops.  They are embedded as
structural recursions over the line, with every out-of-bounds
`std::string::operator[]` access of the source made explicit:

* Key loop `while (line[i] != separator && i < line.length())`: `i` only ever
  reaches `line.length()`, where `line[i]` is the guaranteed `'\0'`; no
  undefined behaviour.  It is `keyScan` below, returning the
  whitespace-stripped key and, when the separator was hit, the rest of the
  line after it.
* Value-start loop `while (line[++i] < 0 || isspace(line[i]))`. When the key
  loop ended at `i = line.length()` (no separator), the first access is
  `line[line.length() + 1]`: out of bounds, undefined behaviour
  (`LineResult.oob`).  Otherwise it skips separator-adjacent whitespace, i.e.
  `dropWhile` on the rest of the line; if everything after the separator is
  whitespace the loop stops at the terminator and `value` becomes `""`.
* Trailing-trim loop `while (value[--i] < 0 || isspace(value[i]))` with `i`
  starting at `value.length()`.  On the empty `value`, `--i` wraps the
  unsigned index around: out of bounds, undefined behaviour
  (`LineResult.oob`).  Otherwise `value[0]` is not whitespace, the loop stops
  at the last non-whitespace position `i`, and `value.erase(++i)` keeps the
  prefix up to it — `dropWhile` on the reversed value. -/

/-- Result of the constructor body for one line: the line is skipped, a
key/value pair is inserted, or the scan reads out of bounds (undefined
behaviour in the source). -/
inductive LineResult
  | skip
  | insert (k v : List Char)
  | oob
deriving DecidableEq, Repr

/-- Models the key loop: walks the line until the separator or the end,
keeping the characters with `line[i] < 0 || !isspace(line[i])`.  Returns the
key and `some rest` when the separator was found (`rest` = the characters
after it), `none` when the line was exhausted. -/
def keyScan (sep : Char) : List Char → List Char × Option (List Char)
  | [] => ([], none)
  | c :: cs =>
    if c = sep then ([], some cs)
    else
      let kr := keyScan sep cs
      ((if isNegChar c || !isCSpace c then c :: kr.1 else kr.1), kr.2)

/-- Models the constructor body for one line of the properties file (the
loop body from `getline` to `_properties.insert`). -/
def processLine (line : List Char) (sep : Char) : LineResult :=
  let ks := keyScan sep line
  if ks.1.length = 0 ∨ ks.1.head? = some '#' ∨ ks.1.head? = some '!'
      ∨ ks.1.length = line.length then
    .skip
  else
    match ks.2 with
    | none => .oob
    | some rest =>
      let v := rest.dropWhile (fun c => isNegChar c || isCSpace c)
      match v with
      | [] => .oob
      | c :: cs =>
        .insert ks.1 (((c :: cs).reverse.dropWhile
          (fun c => isNegChar c || isCSpace c)).reverse)

/-- Models `std::string::operator<` (lexicographic byte comparison; the
headers document ASCII-only content, on which `char` and `Char` comparison
agree). -/
def ltChars : List Char → List Char → Bool
  | _, [] => false
  | [], _ :: _ => true
  | a :: as, b :: bs =>
    if a < b then true
    else if a = b then ltChars as bs
    else false

/-- Models `std::multimap<std::string, std::string>::insert`: the store is
kept ordered by key, and an element with a duplicated key is placed at the
upper bound, i.e. after the existing elements with the same key. -/
def mmInsert : List (List Char × List Char) → List Char × List Char →
    List (List Char × List Char)
  | [], p => [p]
  | q :: rest, p =>
    if ltChars p.1 q.1 then p :: q :: rest else q :: mmInsert rest p

/-- Models the `PropertiesFileReader` constructor on the list of lines read
by its `getline` loop: fold the per-line processing into the multimap.
`none` models the runs in which a line drives the scan out of bounds
(undefined behaviour); the C++ exception paths (`std::bad_alloc` etc.) are
not modelled. -/
def propsConstructFrom (sep : Char) (acc : List (List Char × List Char)) :
    List (List Char) → Option (List (List Char × List Char))
  | [] => some acc
  | l :: rest =>
    match processLine l sep with
    | .oob => none
    | .skip => propsConstructFrom sep acc rest
    | .insert k v => propsConstructFrom sep (mmInsert acc (k, v)) rest

/-- The `PropertiesFileReader` constructor started on the empty multimap. -/
def propsConstruct (lines : List (List Char)) (sep : Char) :
    Option (List (List Char × List Char)) :=
  propsConstructFrom sep [] lines

/-- Models `PropertiesFileReader::keys()`: walk the multimap in order,
pushing a key when the result is empty or its last element differs
(`if (!res.size() || res.back() != kv.first) res.push_back(kv.first);`). -/
def keysOf (props : List (List Char × List Char)) : List (List Char) :=
  props.foldl
    (fun res kv => if res.getLast? = some kv.1 then res else res ++ [kv.1]) []

/-- Models the `equal_range` traversal shared by `values()` and `value()`:
the contiguous run of elements whose key is equivalent to `k` in the
`std::less` sense (`¬(a < k) ∧ ¬(k < a)`). -/
def keyRun (props : List (List Char × List Char)) (k : List Char) :
    List (List Char × List Char) :=
  (props.dropWhile (fun q => ltChars q.1 k)).takeWhile
    (fun q => !ltChars q.1 k && !ltChars k q.1)

/-- Models `PropertiesFileReader::values<std::string>`: the values of the
elements in the `equal_range` run, in multimap order. -/
def valuesOf (props : List (List Char × List Char)) (k : List Char) :
    List (List Char) :=
  (keyRun props k).map (fun q => q.2)

/-- Models `PropertiesFileReader::values<TYPE>` for an arithmetic `TYPE`:
each value is decoded with the same `atof`/`atoi`/`atol` dispatch as the CSV
field decoder. -/
def valuesTyped (t : CType) (props : List (List Char × List Char))
    (k : List Char) : List CVal :=
  (valuesOf props k).map (decodeField t)

/-- Models `PropertiesFileReader::value<TYPE>`: the first value of the run,
decoded; `Except.error` models the `std::out_of_range` thrown when the key
has no entries. -/
def valueTyped (t : CType) (props : List (List Char × List Char))
    (k : List Char) : Except (List Char) CVal :=
  match valuesOf props k with
  | [] => .error k
  | v :: _ => .ok (decodeField t v)

/-! ## Tokenizer lemmas -/

theorem tokenize_ne_nil (s : List Char) (sep : Char) : tokenize s sep ≠ [] := by
  induction s with
  | nil => simp [tokenize]
  | cons c cs ih =>
    simp only [tokenize]
    split
    · simp
    · cases h : tokenize cs sep with
      | nil => simp
      | cons t ts => simp

/-- The structural `tokenize` computes exactly one iteration of the source
loop per step: emit the prefix before the first separator
(`str.substr(init_pos, pos - init_pos)`) and continue after it, or emit the
whole remaining string when `find` fails. -/
theorem tokenize_step (s : List Char) (sep : Char) :
    tokenize s sep =
      match splitFirst sep s with
      | some (t, r) => t :: tokenize r sep
      | none => [s] := by
  induction s with
  | nil => rfl
  | cons c cs ih =>
    simp only [tokenize, splitFirst]
    by_cases h : c = sep
    · simp [h]
    · rw [if_neg h, if_neg h]
      cases hs : splitFirst sep cs with
      | none =>
        rw [hs] at ih
        simp only [Option.map_none']
        rw [ih]
      | some p =>
        rw [hs] at ih
        simp only [Option.map_some']
        rw [ih]

theorem joinSep_tokenize (s : List Char) (sep : Char) :
    joinSep sep (tokenize s sep) = s := by
  induction s with
  | nil => rfl
  | cons c cs ih =>
    simp only [tokenize]
    by_cases h : c = sep
    · rw [if_pos h]
      cases ht : tokenize cs sep with
      | nil => exact absurd ht (tokenize_ne_nil cs sep)
      | cons t ts =>
        rw [ht] at ih
        simp [joinSep, ih, h]
    · rw [if_neg h]
      cases ht : tokenize cs sep with
      | nil => exact absurd ht (tokenize_ne_nil cs sep)
      | cons t ts =>
        rw [ht] at ih
        cases ts with
        | nil => simp_all [joinSep]
        | cons t2 ts2 => simp_all [joinSep]

theorem sep_not_mem_tokenize (s : List Char) (sep : Char) :
    ∀ t ∈ tokenize s sep, sep ∉ t := by
  induction s with
  | nil =>
    intro t ht
    simp [tokenize] at ht
    simp [ht]
  | cons c cs ih =>
    intro t ht
    simp only [tokenize] at ht
    by_cases h : c = sep
    · rw [if_pos h] at ht
      rcases List.mem_cons.mp ht with h1 | h1
      · simp [h1]
      · exact ih t h1
    · rw [if_neg h] at ht
      cases hcs : tokenize cs sep with
      | nil => exact absurd hcs (tokenize_ne_nil cs sep)
      | cons t0 ts =>
        rw [hcs] at ht
        rcases List.mem_cons.mp ht with h1 | h1
        · subst h1
          intro hmem
          rcases List.mem_cons.mp hmem with h2 | h2
          · exact h h2.symm
          · exact ih t0 (hcs ▸ List.mem_cons_self t0 ts) h2
        · exact ih t (hcs ▸ List.mem_cons_of_mem t0 h1)

/-- C4: the tokenizer splits its input on every occurrence of the separator,
preserving empty substrings, the final token running to the end of the
string: the tokens contain no separator, interleaving the separator between
them reconstructs the input, and the token list is never empty (tokenizing
is total — it succeeds on every string, including the empty one).  In
particular `"a;;b"` on `';'` yields `["a","","b"]`, `"a;b;"` yields
`["a","b",""]`, and the empty string yields `[""]`. -/
theorem claim_C4_tokenizer :
    (∀ (s : List Char) (sep : Char),
      joinSep sep (tokenize s sep) = s ∧
      (∀ t ∈ tokenize s sep, sep ∉ t) ∧
      tokenize s sep ≠ []) ∧
    tokenize ['a', ';', ';', 'b'] ';' = [['a'], [], ['b']] ∧
    tokenize ['a', ';', 'b', ';'] ';' = [['a'], ['b'], []] ∧
    tokenize [] ';' = [[]] :=
  ⟨fun s sep =>
    ⟨joinSep_tokenize s sep, sep_not_mem_tokenize s sep, tokenize_ne_nil s sep⟩,
   by decide, by decide, by decide⟩

/-- Witness: the membership hypothesis of the second conjunct of
`claim_C4_tokenizer` discharged at a concrete token. -/
theorem claim_C4_tokenizer_witness : ';' ∉ ['a'] :=
  (claim_C4_tokenizer.1 ['a', ';', ';', 'b'] ';').2.1 ['a'] (by decide)

/-! ## CSV constructor lemmas -/

/-- When every data line has exactly as many tokens as there are column
types, the heterogeneous constructor succeeds and appends one decoded record
per data line. -/
theorem hetConstruct_ok (tys : List CType) (sep : Char) :
    ∀ (lines : List (List Char)) (acc : List (List CVal)),
      (∀ l ∈ lines, skipLine l = false → (tokenize l sep).length = tys.length) →
      hetConstruct tys sep lines acc =
        .ok (acc ++ (lines.filter (fun l => !skipLine l)).map
          (fun l => copyToTuple tys (tokenize l sep))) := by
  intro lines
  induction lines with
  | nil => intro acc _; simp [hetConstruct]
  | cons l rest ih =>
    intro acc h
    simp only [hetConstruct]
    cases hs : skipLine l with
    | true =>
      rw [if_pos (by simp [hs])]
      rw [ih acc (fun x hx => h x (List.mem_cons_of_mem l hx))]
      simp [hs]
    | false =>
      rw [if_neg (by simp [hs])]
      have hlen : (tokenize l sep).length = tys.length :=
        h l (List.mem_cons_self l rest) hs
      rw [if_neg (by simp [hlen])]
      rw [ih (acc ++ [copyToTuple tys (tokenize l sep)])
        (fun x hx => h x (List.mem_cons_of_mem l hx))]
      simp [hs]

/-- A blank/comment prefix leaves the heterogeneous constructor state
unchanged. -/
theorem hetConstruct_skip_lines (tys : List CType) (sep : Char) :
    ∀ (pre : List (List Char)), (∀ l ∈ pre, skipLine l = true) →
    ∀ (rest : List (List Char)) (acc : List (List CVal)),
      hetConstruct tys sep (pre ++ rest) acc = hetConstruct tys sep rest acc := by
  intro pre
  induction pre with
  | nil => intro _ rest acc; rfl
  | cons l pre' ih =>
    intro h rest acc
    have hl : skipLine l = true := h l (List.mem_cons_self l pre')
    simp only [List.cons_append, hetConstruct, List.append_eq]
    rw [if_pos (by simp [hl])]
    exact ih (fun x hx => h x (List.mem_cons_of_mem l hx)) rest acc

/-- A blank/comment prefix leaves the homogeneous constructor state
unchanged. -/
theorem homConstruct_skip_lines (sep : Char) :
    ∀ (pre : List (List Char)), (∀ l ∈ pre, skipLine l = true) →
    ∀ (n : Nat) (rest : List (List Char)) (acc : List (List (List Char))),
      homConstruct sep n (pre ++ rest) acc = homConstruct sep n rest acc := by
  intro pre
  induction pre with
  | nil => intro _ n rest acc; rfl
  | cons l pre' ih =>
    intro h n rest acc
    have hl : skipLine l = true := h l (List.mem_cons_self l pre')
    simp only [List.cons_append, homConstruct, List.append_eq]
    rw [if_pos (by simp [hl])]
    exact ih (fun x hx => h x (List.mem_cons_of_mem l hx)) n rest acc

/-- Position and contents of the heterogeneous row-arity error: when every
line before `bad` is blank, comment or well-formed, the constructor throws
`⟨#accumulated records + 1, token count of bad, #column types⟩`. -/
theorem hetConstruct_error_precise (tys : List CType) (sep : Char) :
    ∀ (pre : List (List Char)) (acc : List (List CVal)),
      (∀ l ∈ pre, skipLine l = true ∨ (tokenize l sep).length = tys.length) →
      ∀ (bad : List Char) (rest : List (List Char)),
        skipLine bad = false → (tokenize bad sep).length ≠ tys.length →
        hetConstruct tys sep (pre ++ bad :: rest) acc =
          .error ⟨acc.length + (pre.filter (fun l => !skipLine l)).length + 1,
                  (tokenize bad sep).length, tys.length⟩ := by
  intro pre
  induction pre with
  | nil =>
    intro acc _ bad rest hb hlen
    simp only [List.nil_append, hetConstruct, List.append_eq]
    rw [if_neg (by simp [hb]), if_pos hlen]
    simp
  | cons l pre' ih =>
    intro acc h bad rest hb hlen
    have hl := h l (List.mem_cons_self l pre')
    simp only [List.cons_append, hetConstruct, List.append_eq]
    cases hs : skipLine l with
    | true =>
      rw [if_pos (by simp [hs])]
      rw [ih acc (fun x hx => h x (List.mem_cons_of_mem l hx)) bad rest hb hlen]
      simp [hs]
    | false =>
      have hleq : (tokenize l sep).length = tys.length := by
        rcases hl with hl | hl
        · rw [hs] at hl; exact absurd hl (by simp)
        · exact hl
      rw [if_neg (by simp [hs]), if_neg (by simp [hleq])]
      rw [ih (acc ++ [copyToTuple tys (tokenize l sep)])
        (fun x hx => h x (List.mem_cons_of_mem l hx)) bad rest hb hlen]
      simp [hs]
      omega

/-- Position and contents of the homogeneous row-arity error, for a nonzero
expected column count. -/
theorem homConstruct_error_precise (sep : Char) (n : Nat) (hn : n ≠ 0) :
    ∀ (pre : List (List Char)) (acc : List (List (List Char))),
      (∀ l ∈ pre, skipLine l = true ∨ (tokenize l sep).length = n) →
      ∀ (bad : List Char) (rest : List (List Char)),
        skipLine bad = false → (tokenize bad sep).length ≠ n →
        homConstruct sep n (pre ++ bad :: rest) acc =
          .error ⟨acc.length + (pre.filter (fun l => !skipLine l)).length + 1,
                  (tokenize bad sep).length, n⟩ := by
  intro pre
  induction pre with
  | nil =>
    intro acc _ bad rest hb hlen
    simp only [List.nil_append, homConstruct, List.append_eq]
    rw [if_neg (by simp [hb])]
    have hn' : (if acc.length = 0 ∧ n = 0 then (tokenize bad sep).length else n) = n := by
      simp [hn]
    rw [hn']
    rw [if_pos hlen]
    simp
  | cons l pre' ih =>
    intro acc h bad rest hb hlen
    have hl := h l (List.mem_cons_self l pre')
    simp only [List.cons_append, homConstruct, List.append_eq]
    cases hs : skipLine l with
    | true =>
      rw [if_pos (by simp [hs])]
      rw [ih acc (fun x hx => h x (List.mem_cons_of_mem l hx)) bad rest hb hlen]
      simp [hs]
    | false =>
      have hleq : (tokenize l sep).length = n := by
        rcases hl with hl | hl
        · rw [hs] at hl; exact absurd hl (by simp)
        · exact hl
      rw [if_neg (by simp [hs])]
      have hn' : (if acc.length = 0 ∧ n = 0 then (tokenize l sep).length else n) = n := by
        simp [hn]
      rw [hn']
      rw [if_neg (by simp [hleq])]
      rw [ih (acc ++ [tokenize l sep])
        (fun x hx => h x (List.mem_cons_of_mem l hx)) bad rest hb hlen]
      simp [hs]
      omega

/-- Some data line with the wrong token count forces the heterogeneous
constructor to throw, whatever was accumulated before. -/
theorem hetConstruct_error_exists (tys : List CType) (sep : Char) :
    ∀ (lines : List (List Char)) (acc : List (List CVal)),
      (∃ l ∈ lines, skipLine l = false ∧ (tokenize l sep).length ≠ tys.length) →
      ∃ e, hetConstruct tys sep lines acc = .error e := by
  intro lines
  induction lines with
  | nil => intro acc h; simp at h
  | cons l rest ih =>
    intro acc h
    simp only [hetConstruct]
    cases hs : skipLine l with
    | true =>
      rw [if_pos (by simp [hs])]
      apply ih
      obtain ⟨l0, hmem, hdata, hlen⟩ := h
      rcases List.mem_cons.mp hmem with h1 | h1
      · subst h1; rw [hs] at hdata; exact absurd hdata (by simp)
      · exact ⟨l0, h1, hdata, hlen⟩
    | false =>
      rw [if_neg (by simp [hs])]
      by_cases hlc : (tokenize l sep).length = tys.length
      · rw [if_neg (by simp [hlc])]
        apply ih
        obtain ⟨l0, hmem, hdata, hlen⟩ := h
        rcases List.mem_cons.mp hmem with h1 | h1
        · subst h1; exact absurd hlc hlen
        · exact ⟨l0, h1, hdata, hlen⟩
      · rw [if_pos hlc]
        exact ⟨_, rfl⟩

/-- Some data line with the wrong token count forces the homogeneous
constructor (with a nonzero expected count) to throw. -/
theorem homConstruct_error_exists (sep : Char) (n : Nat) (hn : n ≠ 0) :
    ∀ (lines : List (List Char)) (acc : List (List (List Char))),
      (∃ l ∈ lines, skipLine l = false ∧ (tokenize l sep).length ≠ n) →
      ∃ e, homConstruct sep n lines acc = .error e := by
  intro lines
  induction lines with
  | nil => intro acc h; simp at h
  | cons l rest ih =>
    intro acc h
    simp only [homConstruct]
    have hn' : ∀ (m : Nat),
        (if acc.length = 0 ∧ n = 0 then m else n) = n := by
      intro m; simp [hn]
    cases hs : skipLine l with
    | true =>
      rw [if_pos (by simp [hs])]
      apply ih
      obtain ⟨l0, hmem, hdata, hlen⟩ := h
      rcases List.mem_cons.mp hmem with h1 | h1
      · subst h1; rw [hs] at hdata; exact absurd hdata (by simp)
      · exact ⟨l0, h1, hdata, hlen⟩
    | false =>
      rw [if_neg (by simp [hs]), hn']
      by_cases hlc : (tokenize l sep).length = n
      · rw [if_neg (by simp [hlc])]
        apply ih
        obtain ⟨l0, hmem, hdata, hlen⟩ := h
        rcases List.mem_cons.mp hmem with h1 | h1
        · subst h1; exact absurd hlc hlen
        · exact ⟨l0, h1, hdata, hlen⟩
      · rw [if_pos hlc]
        exact ⟨_, rfl⟩

/-- Splits a list at the head of its filtered sublist: everything before the
first element satisfying `p` fails `p`. -/
theorem filter_head_decomp {α : Type} (p : α → Bool) :
    ∀ (lines : List α) (x : α), (lines.filter p).head? = some x →
      ∃ pre post, lines = pre ++ x :: post ∧ (∀ l ∈ pre, p l = false) ∧
        p x = true := by
  intro lines
  induction lines with
  | nil => intro x h; simp at h
  | cons l rest ih =>
    intro x h
    cases hp : p l with
    | true =>
      rw [List.filter_cons_of_pos hp] at h
      simp only [List.head?_cons, Option.some.injEq] at h
      subst h
      exact ⟨[], rest, by simp, by simp, hp⟩
    | false =>
      rw [List.filter_cons_of_neg (by simp [hp])] at h
      obtain ⟨pre, post, heq, hpre, hx⟩ := ih x h
      refine ⟨l :: pre, post, by simp [heq], ?_, hx⟩
      intro a ha
      rcases List.mem_cons.mp ha with h1 | h1
      · subst h1; exact hp
      · exact hpre a h1

/-- The first step of the homogeneous constructor on its first data line,
with the column-count sentinel `0`: the line's own token count is adopted and
the line is accepted. -/
theorem homConstruct_first_data (sep : Char) (first : List Char)
    (post : List (List Char)) (hf : skipLine first = false) :
    homConstruct sep 0 (first :: post) [] =
      homConstruct sep (tokenize first sep).length post [tokenize first sep] := by
  simp only [homConstruct]
  rw [if_neg (by simp [hf])]
  simp

theorem tokenize_length_pos (s : List Char) (sep : Char) :
    (tokenize s sep).length ≠ 0 := by
  intro h
  exact tokenize_ne_nil s sep (List.length_eq_zero.mp h)

/-- C1: a file in which every non-comment, non-blank line tokenizes to
exactly `tys.length` fields constructs successfully; `size()` is the number
of such data lines and `cols()` is the number of declared column types. -/
theorem claim_C1_het_wellformed (tys : List CType) (sep : Char)
    (lines : List (List Char))
    (h : ∀ l ∈ lines, skipLine l = false → (tokenize l sep).length = tys.length) :
    ∃ r, hetConstruct tys sep lines [] = .ok r ∧
      hetSize r = (lines.filter (fun l => !skipLine l)).length ∧
      hetCols tys = tys.length := by
  refine ⟨(lines.filter (fun l => !skipLine l)).map
    (fun l => copyToTuple tys (tokenize l sep)), ?_, ?_, rfl⟩
  · rw [hetConstruct_ok tys sep lines [] h]
    simp
  · simp [hetSize]

/-- Witness for `claim_C1_het_wellformed` at a concrete two-column file with
one comment line, one blank line and one data line. -/
theorem claim_C1_het_wellformed_witness :
    ∃ r, hetConstruct [CType.cstr, CType.cint] ','
        [['#', 'c'], ['a', ',', '1'], []] [] = .ok r ∧
      hetSize r = 1 ∧ hetCols [CType.cstr, CType.cint] = 2 := by
  obtain ⟨r, h1, h2, h3⟩ := claim_C1_het_wellformed [CType.cstr, CType.cint] ','
    [['#', 'c'], ['a', ',', '1'], []] (by decide)
  exact ⟨r, h1, by rw [h2]; decide, h3⟩

/-- C2: a data line whose token count differs from the expected column count
(the declared type count for the heterogeneous reader; the explicit or
inferred count for the homogeneous reader) makes construction fail: the
result is an error and no store — in particular no partially filled record
list — is produced (the source also clears `_records` before throwing). -/
theorem claim_C2_arity_error_all_or_nothing :
    (∀ (tys : List CType) (sep : Char) (lines : List (List Char)),
      (∃ l ∈ lines, skipLine l = false ∧ (tokenize l sep).length ≠ tys.length) →
      (∃ e, hetConstruct tys sep lines [] = .error e) ∧
      ∀ r, hetConstruct tys sep lines [] ≠ .ok r) ∧
    (∀ (sep : Char) (n C : Nat) (lines : List (List Char)),
      establishedCols sep n lines = some C →
      (∃ l ∈ lines, skipLine l = false ∧ (tokenize l sep).length ≠ C) →
      (∃ e, homConstruct sep n lines [] = .error e) ∧
      ∀ r, homConstruct sep n lines [] ≠ .ok r) := by
  constructor
  · intro tys sep lines h
    obtain ⟨e, he⟩ := hetConstruct_error_exists tys sep lines [] h
    exact ⟨⟨e, he⟩, fun r hr => by rw [he] at hr; exact Except.noConfusion hr⟩
  · intro sep n C lines hC h
    suffices hs : ∃ e, homConstruct sep n lines [] = .error e by
      obtain ⟨e, he⟩ := hs
      exact ⟨⟨e, he⟩, fun r hr => by rw [he] at hr; exact Except.noConfusion hr⟩
    by_cases hn : n = 0
    · subst hn
      simp only [establishedCols, ne_eq, not_true_eq_false, if_false] at hC
      obtain ⟨first, hfirst, hCfirst⟩ := Option.map_eq_some'.mp hC
      obtain ⟨pre0, post, heq, hpre0, hpfirst⟩ :=
        filter_head_decomp (fun l => !skipLine l) lines first hfirst
      have hfdata : skipLine first = false := by
        simpa using hpfirst
      obtain ⟨bad, hmem, hbdata, hblen⟩ := h
      have hbadpost : bad ∈ post := by
        rw [heq] at hmem
        rcases List.mem_append.mp hmem with h1 | h1
        · have := hpre0 bad h1
          rw [hbdata] at this
          simp at this
        · rcases List.mem_cons.mp h1 with h2 | h2
          · subst h2
            exact absurd hCfirst hblen
          · exact h2
      rw [heq, homConstruct_skip_lines sep pre0
        (fun l hl => by simpa using hpre0 l hl),
        homConstruct_first_data sep first post hfdata]
      apply homConstruct_error_exists sep (tokenize first sep).length
        (tokenize_length_pos first sep)
      exact ⟨bad, hbadpost, hbdata, by rw [hCfirst]; exact hblen⟩
    · have hCn : C = n := by
        simp only [establishedCols, ne_eq, hn, not_false_eq_true, if_true,
          Option.some.injEq] at hC
        exact hC.symm
      subst hCn
      exact homConstruct_error_exists sep C hn lines [] h

/-- Witness for the hypotheses of `claim_C2_arity_error_all_or_nothing`:
both constructors fail on a concrete file whose second data line has the
wrong field count. -/
theorem claim_C2_arity_error_all_or_nothing_witness :
    (∃ e, hetConstruct [CType.cstr, CType.cstr] ','
      [['a', ',', 'b'], ['c']] [] = .error e) ∧
    (∃ e, homConstruct ',' 0 [['a', ',', 'b'], ['c']] [] = .error e) := by
  refine ⟨(claim_C2_arity_error_all_or_nothing.1 [CType.cstr, CType.cstr] ','
    [['a', ',', 'b'], ['c']] ⟨['c'], by decide, by decide, by decide⟩).1, ?_⟩
  exact (claim_C2_arity_error_all_or_nothing.2 ',' 0 2 [['a', ',', 'b'], ['c']]
    (by decide) ⟨['c'], by decide, by decide, by decide⟩).1

/-- Counterexample to C3: in the file `["#c", "a,b"]` read as one string
column, the first (and only) arity violation is on file line 2, but the
constructor computes the reported number as `_records.size() + 1` and throws
with line number 1. -/
theorem claim_C3_counterexample :
    hetConstruct [CType.cstr] ',' [['#', 'c'], ['a', ',', 'b']] [] =
      .error ⟨1, 2, 1⟩ ∧ (1 : Nat) ≠ 2 :=
  ⟨rfl, by decide⟩

/-- C3 as amended: the row-arity error of either CSV constructor reports the
1-based index of the offending row among the parsed data rows — the number
of previously accumulated records plus one, not the file line number —
together with the actual token count and the expected column count.  Stated
for the heterogeneous constructor, the homogeneous constructor with an
explicit count, and the homogeneous constructor with the inferred count. -/
theorem claim_C3_amended_error_contents :
    (∀ (tys : List CType) (sep : Char) (pre : List (List Char))
        (bad : List Char) (rest : List (List Char)),
      (∀ l ∈ pre, skipLine l = true ∨ (tokenize l sep).length = tys.length) →
      skipLine bad = false → (tokenize bad sep).length ≠ tys.length →
      hetConstruct tys sep (pre ++ bad :: rest) [] =
        .error ⟨(pre.filter (fun l => !skipLine l)).length + 1,
                (tokenize bad sep).length, tys.length⟩) ∧
    (∀ (sep : Char) (n : Nat) (pre : List (List Char))
        (bad : List Char) (rest : List (List Char)),
      n ≠ 0 →
      (∀ l ∈ pre, skipLine l = true ∨ (tokenize l sep).length = n) →
      skipLine bad = false → (tokenize bad sep).length ≠ n →
      homConstruct sep n (pre ++ bad :: rest) [] =
        .error ⟨(pre.filter (fun l => !skipLine l)).length + 1,
                (tokenize bad sep).length, n⟩) ∧
    (∀ (sep : Char) (pre0 : List (List Char)) (first : List Char)
        (pre1 : List (List Char)) (bad : List Char) (rest : List (List Char)),
      (∀ l ∈ pre0, skipLine l = true) → skipLine first = false →
      (∀ l ∈ pre1, skipLine l = true ∨
        (tokenize l sep).length = (tokenize first sep).length) →
      skipLine bad = false →
      (tokenize bad sep).length ≠ (tokenize first sep).length →
      homConstruct sep 0 (pre0 ++ first :: (pre1 ++ bad :: rest)) [] =
        .error ⟨(pre1.filter (fun l => !skipLine l)).length + 2,
                (tokenize bad sep).length, (tokenize first sep).length⟩) := by
  refine ⟨?_, ?_, ?_⟩
  · intro tys sep pre bad rest hpre hb hlen
    rw [hetConstruct_error_precise tys sep pre [] hpre bad rest hb hlen]
    simp
  · intro sep n pre bad rest hn hpre hb hlen
    rw [homConstruct_error_precise sep n hn pre [] hpre bad rest hb hlen]
    simp
  · intro sep pre0 first pre1 bad rest hpre0 hf hpre1 hb hlen
    rw [homConstruct_skip_lines sep pre0 hpre0,
      homConstruct_first_data sep first (pre1 ++ bad :: rest) hf,
      homConstruct_error_precise sep (tokenize first sep).length
        (tokenize_length_pos first sep) pre1 [tokenize first sep] hpre1
        bad rest hb hlen]
    simp only [Except.error.injEq, RowError.mk.injEq, List.length_cons,
      List.length_nil, and_true, true_and]
    omega

/-- Witness for `claim_C3_amended_error_contents` at concrete files: each
constructor variant reports record-count-plus-one (here: a comment line
precedes the bad line, so the reported number differs from the file line). -/
theorem claim_C3_amended_error_contents_witness :
    hetConstruct [CType.cstr] ',' [['#', 'c'], ['a', ',', 'b']] [] =
      .error ⟨1, 2, 1⟩ ∧
    homConstruct ',' 2 [['#', 'c'], ['a']] [] = .error ⟨1, 1, 2⟩ ∧
    homConstruct ',' 0 [['#', 'c'], ['a', ',', 'b'], ['x']] [] =
      .error ⟨2, 1, 2⟩ := by
  refine ⟨?_, ?_, ?_⟩
  · have h := claim_C3_amended_error_contents.1 [CType.cstr] ','
      [['#', 'c']] ['a', ',', 'b'] [] (by decide) (by decide) (by decide)
    rw [show [['#', 'c']] ++ [['a', ',', 'b']] =
      [['#', 'c'], ['a', ',', 'b']] from rfl] at h
    rw [h]
    rfl
  · have h := claim_C3_amended_error_contents.2.1 ',' 2
      [['#', 'c']] ['a'] [] (by decide) (by decide) (by decide) (by decide)
    rw [show [['#', 'c']] ++ [['a']] = [['#', 'c'], ['a']] from rfl] at h
    rw [h]
    rfl
  · have h := claim_C3_amended_error_contents.2.2 ','
      [['#', 'c']] ['a', ',', 'b'] [] ['x'] []
      (by decide) (by decide) (by decide) (by decide) (by decide)
    rw [show [['#', 'c']] ++ ['a', ',', 'b'] :: ([] ++ ['x'] :: []) =
      [['#', 'c'], ['a', ',', 'b'], ['x']] from rfl] at h
    rw [h]
    rfl

/-- Success of the homogeneous constructor with an explicit column count
implies success with the inferred-count sentinel `0`, with the identical
record list. -/
theorem homConstruct_explicit_to_inferred (sep : Char) (C : Nat) :
    ∀ (lines : List (List Char)) (r : List (List (List Char))),
      homConstruct sep C lines [] = .ok r → homConstruct sep 0 lines [] = .ok r := by
  by_cases hC : C = 0
  · subst hC; exact fun lines r h => h
  · intro lines
    induction lines with
    | nil => intro r h; exact h
    | cons l rest ih =>
      intro r h
      cases hs : skipLine l with
      | true =>
        simp only [homConstruct] at h ⊢
        rw [if_pos (by simp [hs])] at h ⊢
        exact ih r h
      | false =>
        rw [homConstruct_first_data sep l rest hs]
        simp only [homConstruct] at h
        rw [if_neg (by simp [hs])] at h
        have hCn : (if ([] : List (List (List Char))).length = 0 ∧ C = 0
            then (tokenize l sep).length else C) = C := by simp [hC]
        rw [hCn] at h
        by_cases hlc : (tokenize l sep).length = C
        · rw [if_neg (by simp [hlc])] at h
          rw [hlc]
          simpa using h
        · rw [if_pos hlc] at h
          exact Except.noConfusion h

/-- C6: if the homogeneous constructor succeeds on a file with an explicit
column count, it also succeeds on the same file with the count unspecified
(the `0` sentinel), and the two stores have identical `size()` and identical
`cols()` (identical record lists, in fact). -/
theorem claim_C6_explicit_inferred_roundtrip (sep : Char) (C : Nat)
    (lines : List (List Char)) (r : List (List (List Char)))
    (h : homConstruct sep C lines [] = .ok r) :
    ∃ r2, homConstruct sep 0 lines [] = .ok r2 ∧
      homSize r2 = homSize r ∧ homCols r2 = homCols r :=
  ⟨r, homConstruct_explicit_to_inferred sep C lines r h, rfl, rfl⟩

/-- Witness for `claim_C6_explicit_inferred_roundtrip` on a concrete
two-line, three-column file with explicit count 3. -/
theorem claim_C6_explicit_inferred_roundtrip_witness :
    ∃ r2, homConstruct ';' 0 [['a', ';', 'b', ';', 'c'], ['d', ';', ';', 'f']] []
        = .ok r2 ∧
      homSize r2 = 2 ∧ homCols r2 = some 3 := by
  obtain ⟨r2, h1, h2, h3⟩ := claim_C6_explicit_inferred_roundtrip ';' 3
    [['a', ';', 'b', ';', 'c'], ['d', ';', ';', 'f']]
    [[['a'], ['b'], ['c']], [['d'], [], ['f']]] rfl
  exact ⟨r2, h1, by rw [h2]; decide, by rw [h3]; decide⟩

/-- C10: on a file of blank and comment lines only, the homogeneous
constructor succeeds with an empty record list, on which the record-0 access
inside `cols()` is out of bounds (`none` in the model); in general that
access is in bounds exactly when `size()` is positive, so `cols()` carries
the unstated precondition that the store is non-empty. -/
theorem claim_C10_homCols_empty_store (sep : Char) (n : Nat)
    (lines : List (List Char)) (h : ∀ l ∈ lines, skipLine l = true) :
    homConstruct sep n lines [] = .ok [] ∧ homCols [] = none ∧
    ∀ rs : List (List (List Char)), (homCols rs).isSome ↔ 0 < homSize rs := by
  refine ⟨?_, rfl, ?_⟩
  · have := homConstruct_skip_lines sep lines h n [] []
    simpa using this
  · intro rs
    cases rs with
    | nil => simp [homCols, homSize]
    | cons r rest => simp [homCols, homSize]

/-- Witness for `claim_C10_homCols_empty_store` on a concrete file holding
one comment line and one blank line. -/
theorem claim_C10_homCols_empty_store_witness :
    homConstruct ',' 0 [['#', 'c'], []] [] = .ok [] ∧ homCols [] = none :=
  have h := claim_C10_homCols_empty_store ',' 0 [['#', 'c'], []] (by decide)
  ⟨h.1, h.2.1⟩

/-! ## Lenient numeric decoding (C5) -/

/-- Decimal digit test. -/
def isDigitC (c : Char) : Bool :=
  decide ('0' ≤ c) && decide (c ≤ '9')

/-- The input as seen by the digit parser: after leading whitespace and an
optional sign. -/
def afterSignM (s : List Char) : List Char :=
  (parseSign (s.dropWhile isCSpace)).2

/-- No leading decimal digit. -/
def hdNonDigit : List Char → Bool
  | [] => true
  | c :: _ => !isDigitC c

/-- No decimal digit after a leading decimal point either. -/
def fracNonDigit : List Char → Bool
  | [] => true
  | c :: rest => if c = '.' then hdNonDigit rest else true

theorem parseDigits_no_digit (t : List Char) (a n : Nat)
    (h : hdNonDigit t = true) : parseDigits t a n = (a, n, t) := by
  cases t with
  | nil => rfl
  | cons c cs =>
    have hc : isDigitC c = false := by
      simpa [hdNonDigit] using h
    have hcp : ¬('0' ≤ c ∧ c ≤ '9') := by
      intro hcon
      simp [isDigitC, hcon.1, hcon.2] at hc
    simp only [parseDigits]
    rw [if_neg hcp]

/-- `atoi`/`atol` on input with no leading digit yields 0 (never an
error). -/
theorem atoiM_nonNumeric (s : List Char) (h : hdNonDigit (afterSignM s) = true) :
    atoiM s = 0 := by
  unfold afterSignM at h
  simp only [atoiM]
  rw [parseDigits_no_digit _ 0 0 h]
  simp

/-- `atof` on input with no digit before the optional exponent yields 0
(never an error). -/
theorem atofM_nonNumeric (s : List Char) (h1 : hdNonDigit (afterSignM s) = true)
    (h2 : fracNonDigit (afterSignM s) = true) : atofM s = 0 := by
  unfold afterSignM at h1 h2
  simp only [atofM]
  rw [parseDigits_no_digit _ 0 0 h1]
  cases ht : (parseSign (s.dropWhile isCSpace)).2 with
  | nil => simp
  | cons c cs =>
    rw [ht] at h2
    by_cases hdot : c = '.'
    · subst hdot
      have hcs : hdNonDigit cs = true := by
        simpa [fracNonDigit] using h2
      simp [parseDigits_no_digit cs 0 0 hcs]
    · simp [hdot]

theorem atofM_12x : atofM ['1', '2', 'x'] = 12 := by
  simp +decide [atofM, parseDigits, parseSign, isCSpace, List.dropWhile]

/-- C5: numeric decoding never fails — it takes the leading numeric prefix
and yields 0 on non-numeric input.  Concretely: the CSV field decoder sends
`"12x"` at a floating-point column to 12.0 and `"abc"` at an integer column
to 0; the general zero-on-non-numeric fact holds for both decode routines;
and the typed accessors of the properties store decode the same way
(`values<double>` of a `"12x"` property is `[12.0]`, `value<int>` of an
`"abc"` property is 0, not an error). -/
theorem claim_C5_lenient_decode :
    decodeField .cflt ['1', '2', 'x'] = .vflt 12 ∧
    decodeField .cint ['a', 'b', 'c'] = .vint 0 ∧
    (∀ s, hdNonDigit (afterSignM s) = true →
      decodeField .cint s = .vint 0) ∧
    (∀ s, hdNonDigit (afterSignM s) = true → fracNonDigit (afterSignM s) = true →
      decodeField .cflt s = .vflt 0) ∧
    (propsConstruct [['k', '=', '1', '2', 'x']] '=').map
      (fun st => valuesTyped .cflt st ['k']) = some [.vflt 12] ∧
    (propsConstruct [['k', '=', 'a', 'b', 'c']] '=').map
      (fun st => valueTyped .cint st ['k']) = some (.ok (.vint 0)) := by
  refine ⟨?_, ?_, ?_, ?_, ?_, ?_⟩
  · show CVal.vflt (atofM ['1', '2', 'x']) = CVal.vflt 12
    rw [atofM_12x]
  · rfl
  · intro s h
    show CVal.vint (atoiM s) = CVal.vint 0
    rw [atoiM_nonNumeric s h]
  · intro s h1 h2
    show CVal.vflt (atofM s) = CVal.vflt 0
    rw [atofM_nonNumeric s h1 h2]
  · have hst : propsConstruct [['k', '=', '1', '2', 'x']] '=' =
        some [(['k'], ['1', '2', 'x'])] := rfl
    rw [hst, Option.map_some']
    have hv : valuesOf [(['k'], ['1', '2', 'x'])] ['k'] = [['1', '2', 'x']] := rfl
    simp only [valuesTyped, hv, List.map_cons, List.map_nil, decodeField,
      atofM_12x]
  · rfl

/-- Witness: the hypotheses of the general conjuncts of
`claim_C5_lenient_decode` discharged at `"abc"`. -/
theorem claim_C5_lenient_decode_witness :
    decodeField .cint ['a', 'b', 'c'] = .vint 0 ∧
    decodeField .cflt ['a', 'b', 'c'] = .vflt 0 :=
  ⟨claim_C5_lenient_decode.2.2.1 ['a', 'b', 'c'] (by decide),
   claim_C5_lenient_decode.2.2.2.1 ['a', 'b', 'c'] (by decide) (by decide)⟩

/-! ## Properties line processing (C7, C9) -/

/-- Specification-side candidate key: the characters before the first
separator, with whitespace stripped. -/
def stripKey (line : List Char) (sep : Char) : List Char :=
  (line.takeWhile (fun c => c ≠ sep)).filter
    (fun c => isNegChar c || !isCSpace c)

/-- Specification-side remainder of the line after the first separator
(meaningful when `sep ∈ line`). -/
def afterSep (line : List Char) (sep : Char) : List Char :=
  line.drop ((line.takeWhile (fun c => c ≠ sep)).length + 1)

/-- Specification-side value: the remainder after the separator with leading
and trailing whitespace (and high-bit bytes) removed. -/
def trimValue (t : List Char) : List Char :=
  ((t.dropWhile (fun c => isNegChar c || isCSpace c)).reverse.dropWhile
    (fun c => isNegChar c || isCSpace c)).reverse

/-- The key loop computes the whitespace-stripped prefix before the first
separator. -/
theorem keyScan_fst (sep : Char) :
    ∀ line : List Char, (keyScan sep line).1 = stripKey line sep := by
  intro line
  induction line with
  | nil => rfl
  | cons c cs ih =>
    simp only [keyScan, stripKey]
    by_cases h : c = sep
    · simp [h, List.takeWhile_cons]
    · simp only [stripKey] at ih
      rw [if_neg h, List.takeWhile_cons_of_pos (by simp [h])]
      simp [List.filter_cons, ih]

/-- The key loop reaches the end of the line exactly when the line has no
separator. -/
theorem keyScan_snd_none (sep : Char) :
    ∀ line : List Char, (keyScan sep line).2 = none ↔ sep ∉ line := by
  intro line
  induction line with
  | nil => simp [keyScan]
  | cons c cs ih =>
    simp only [keyScan]
    by_cases h : c = sep
    · simp [h]
    · simp only [if_neg h]
      rw [List.mem_cons, not_or]
      constructor
      · intro h2
        exact ⟨fun he => h he.symm, (ih.mp h2)⟩
      · intro ⟨_, h2⟩
        exact ih.mpr h2

/-- When the line contains the separator, the key loop stops at its first
occurrence and hands over the rest of the line. -/
theorem keyScan_snd_some (sep : Char) :
    ∀ line : List Char, sep ∈ line →
      (keyScan sep line).2 = some (afterSep line sep) := by
  intro line
  induction line with
  | nil => intro h; simp at h
  | cons c cs ih =>
    intro hmem
    simp only [keyScan, afterSep]
    by_cases h : c = sep
    · simp [h, List.takeWhile_cons]
    · have hcs : sep ∈ cs := by
        rcases List.mem_cons.mp hmem with h1 | h1
        · exact absurd h1.symm h
        · exact h1
      rw [if_neg h, List.takeWhile_cons_of_pos (by simp [h])]
      simp only [List.length_cons, List.drop_succ_cons]
      have := ih hcs
      simp only [afterSep] at this
      simpa using this

/-- The discard condition evaluated by the constructor, in terms of the
specification-side stripped key: key empty, comment marker first, or key as
long as the whole line (which happens exactly when the line has no separator
and no whitespace was stripped). -/
def discardSpec (line : List Char) (sep : Char) : Prop :=
  stripKey line sep = [] ∨ (stripKey line sep).head? = some '#' ∨
  (stripKey line sep).head? = some '!' ∨
  (stripKey line sep).length = line.length

instance (line : List Char) (sep : Char) : Decidable (discardSpec line sep) := by
  unfold discardSpec
  infer_instance

/-- Counterexample to C7: the line `"a b"` contains no separator, so the
claim says it is discarded; the constructor instead runs its value scan from
`i = line.length()` and performs an out-of-bounds `line[i+1]` access. -/
theorem claim_C7_counterexample :
    processLine ['a', ' ', 'b'] '=' = .oob ∧ LineResult.oob ≠ LineResult.skip :=
  ⟨rfl, by decide⟩

/-- C7 as amended: a line is discarded exactly when its stripped key is
empty, starts with `'#'` or `'!'`, or is as long as the whole line (no
separator found and no whitespace stripped).  When a separator is present,
the line is not discarded and some non-whitespace character follows the
first separator, the pair (stripped key, trimmed value) is inserted — in
particular `"key = value  "` yields `("key", "value")`.  In the remaining
cases (no separator but whitespace was stripped, or nothing but whitespace
after the separator) the scan reads out of bounds instead of discarding. -/
theorem claim_C7_amended_line_processing :
    (∀ (line : List Char) (sep : Char),
      processLine line sep = .skip ↔ discardSpec line sep) ∧
    (∀ (line : List Char) (sep : Char),
      sep ∈ line → ¬ discardSpec line sep →
      (afterSep line sep).dropWhile (fun c => isNegChar c || isCSpace c) ≠ [] →
      processLine line sep =
        .insert (stripKey line sep) (trimValue (afterSep line sep))) ∧
    (∀ (line : List Char) (sep : Char),
      ¬ discardSpec line sep →
      (sep ∉ line ∨
        (afterSep line sep).dropWhile (fun c => isNegChar c || isCSpace c) = []) →
      processLine line sep = .oob) ∧
    processLine ['k', 'e', 'y', ' ', '=', ' ', 'v', 'a', 'l', 'u', 'e', ' ', ' ']
      '=' = .insert ['k', 'e', 'y'] ['v', 'a', 'l', 'u', 'e'] := by
  refine ⟨?_, ?_, ?_, rfl⟩
  · intro line sep
    simp only [processLine, keyScan_fst]
    by_cases hP : discardSpec line sep
    · unfold discardSpec at hP
      rw [if_pos (by simpa [List.length_eq_zero] using hP)]
      simpa using hP
    · unfold discardSpec at hP
      rw [if_neg (by simpa [List.length_eq_zero] using hP)]
      constructor
      · intro hcontra
        cases hk2 : (keyScan sep line).2 with
        | none => rw [hk2] at hcontra; exact LineResult.noConfusion hcontra
        | some rest =>
          rw [hk2] at hcontra
          simp only at hcontra
          cases hv : rest.dropWhile (fun c => isNegChar c || isCSpace c) with
          | nil => rw [hv] at hcontra; exact LineResult.noConfusion hcontra
          | cons c cs => rw [hv] at hcontra; exact LineResult.noConfusion hcontra
      · intro hcontra
        exact absurd hcontra hP
  · intro line sep hmem hnd hne
    simp only [processLine, keyScan_fst]
    unfold discardSpec at hnd
    rw [if_neg (by simpa [List.length_eq_zero] using hnd)]
    rw [keyScan_snd_some sep line hmem]
    simp only []
    cases hv : (afterSep line sep).dropWhile (fun c => isNegChar c || isCSpace c) with
    | nil => exact absurd hv hne
    | cons c cs =>
      simp only [trimValue, hv]
  · intro line sep hnd hcase
    simp only [processLine, keyScan_fst]
    unfold discardSpec at hnd
    rw [if_neg (by simpa [List.length_eq_zero] using hnd)]
    rcases hcase with hcase | hcase
    · rw [(keyScan_snd_none sep line).mpr hcase]
    · by_cases hm : sep ∈ line
      · rw [keyScan_snd_some sep line hm]
        simp only []
        rw [hcase]
      · rw [(keyScan_snd_none sep line).mpr hm]

/-- Witness: the hypotheses of `claim_C7_amended_line_processing` discharged
at concrete lines (an inserted line, a no-separator line with whitespace,
and a separator-with-blank-value line). -/
theorem claim_C7_amended_line_processing_witness :
    (processLine ['a', 'b'] '=' = .skip ↔ discardSpec ['a', 'b'] '=') ∧
    processLine ['k', '=', ' ', 'v', ' '] '=' = .insert ['k'] ['v'] ∧
    processLine ['a', ' ', 'b'] '=' = .oob ∧
    processLine ['k', '=', ' '] '=' = .oob := by
  refine ⟨claim_C7_amended_line_processing.1 ['a', 'b'] '=', ?_, ?_, ?_⟩
  · have h := claim_C7_amended_line_processing.2.1 ['k', '=', ' ', 'v', ' '] '='
      (by decide) (by decide) (by decide)
    rw [h]
    rfl
  · exact claim_C7_amended_line_processing.2.2.1 ['a', ' ', 'b'] '='
      (by decide) (Or.inl (by decide))
  · exact claim_C7_amended_line_processing.2.2.1 ['k', '=', ' '] '='
      (by decide) (Or.inr (by decide))

/-! ## Properties store invariants (C9) -/

theorem mem_mmInsert (x p : List Char × List Char) :
    ∀ props, x ∈ mmInsert props p ↔ x ∈ props ∨ x = p := by
  intro props
  induction props with
  | nil => simp [mmInsert]
  | cons q rest ih =>
    simp only [mmInsert]
    by_cases h : ltChars p.1 q.1
    · simp only [if_pos h, List.mem_cons]
      tauto
    · simp only [if_neg h, List.mem_cons, ih]
      tauto

theorem dropWhile_head_pred_false {α : Type} {p : α → Bool} :
    ∀ (l : List α) (c : α) (cs : List α), l.dropWhile p = c :: cs →
      p c = false := by
  intro l
  induction l with
  | nil => intro c cs h; simp at h
  | cons a as ih =>
    intro c cs h
    by_cases hp : p a
    · rw [List.dropWhile_cons_of_pos hp] at h
      exact ih c cs h
    · rw [List.dropWhile_cons_of_neg hp] at h
      cases h
      simpa using hp

/-- An inserted pair has a non-empty key (the empty key marks a discarded
line) and a non-empty value (the value starts at a non-whitespace
character). -/
theorem processLine_insert_nonempty (line : List Char) (sep : Char)
    (k v : List Char) (h : processLine line sep = .insert k v) :
    k ≠ [] ∧ v ≠ [] := by
  simp only [processLine] at h
  split at h
  · exact absurd h (by simp)
  · rename_i hP
    split at h
    · exact absurd h (by simp)
    · rename_i rest hrest
      split at h
      · exact absurd h (by simp)
      · rename_i c cs hv
        simp only [LineResult.insert.injEq] at h
        obtain ⟨hk, hv2⟩ := h
        subst hk
        subst hv2
        constructor
        · intro hke
          exact hP (Or.inl (by simp [hke]))
        · intro hve
          have hrev : (c :: cs).reverse.dropWhile
              (fun c => isNegChar c || isCSpace c) = [] := by
            have := congrArg List.reverse hve
            simpa using this
          have hall := List.dropWhile_eq_nil_iff.mp hrev
          have hc : (fun c => isNegChar c || isCSpace c) c = true :=
            hall c (by simp)
          have hcf := dropWhile_head_pred_false rest c cs hv
          have hc2 : (isNegChar c || isCSpace c) = true := by simpa using hc
          rw [hcf] at hc2
          exact Bool.noConfusion hc2

/-- C9: every key and every value stored by the properties constructor is a
non-empty string; no run that completes (without undefined behaviour) can
put an empty key or an empty value in the multimap. -/
theorem claim_C9_no_empty_keys_values (lines : List (List Char)) (sep : Char)
    (store : List (List Char × List Char))
    (h : propsConstruct lines sep = some store) :
    ∀ p ∈ store, p.1 ≠ [] ∧ p.2 ≠ [] := by
  have haux : ∀ (ls : List (List Char)) (acc st : List (List Char × List Char)),
      (∀ p ∈ acc, p.1 ≠ [] ∧ p.2 ≠ []) →
      propsConstructFrom sep acc ls = some st →
      ∀ p ∈ st, p.1 ≠ [] ∧ p.2 ≠ [] := by
    intro ls
    induction ls with
    | nil =>
      intro acc st hacc hsome p hp
      simp only [propsConstructFrom, Option.some.injEq] at hsome
      subst hsome
      exact hacc p hp
    | cons l rest ih =>
      intro acc st hacc hsome p hp
      simp only [propsConstructFrom] at hsome
      cases hpl : processLine l sep with
      | oob => rw [hpl] at hsome; exact Option.noConfusion hsome
      | skip => rw [hpl] at hsome; exact ih acc st hacc hsome p hp
      | insert k v =>
        rw [hpl] at hsome
        refine ih _ st ?_ hsome p hp
        intro q hq
        rcases (mem_mmInsert q (k, v) acc).mp hq with h1 | h1
        · exact hacc q h1
        · subst h1
          exact processLine_insert_nonempty l sep k v hpl
  exact haux lines [] store (by simp) h

/-- Witness: `claim_C9_no_empty_keys_values` applied to the store built from
the single line `"k=v"`. -/
theorem claim_C9_no_empty_keys_values_witness :
    (['k'], ['v']).1 ≠ ([] : List Char) ∧ (['k'], ['v']).2 ≠ ([] : List Char) :=
  claim_C9_no_empty_keys_values [['k', '=', 'v']] '=' [(['k'], ['v'])] rfl
    (['k'], ['v']) (by decide)

/-! ## Multimap ordering (C8)

`_properties` is a `std::multimap`, so iteration is in `std::less` key order,
not insertion order.  The lemmas below establish the strict-weak-order facts
about the key comparison and the sortedness invariant of the store. -/

theorem ltChars_irrefl : ∀ a : List Char, ltChars a a = false := by
  intro a
  induction a with
  | nil => rfl
  | cons c cs ih => simp [ltChars, ih]

theorem ltChars_asymm : ∀ a b : List Char,
    ltChars a b = true → ltChars b a = false := by
  intro a
  induction a with
  | nil =>
    intro b h
    cases b with
    | nil => exact absurd h (by simp [ltChars])
    | cons d ds => rfl
  | cons c cs ih =>
    intro b h
    cases b with
    | nil => exact absurd h (by simp [ltChars])
    | cons d ds =>
      simp only [ltChars] at h ⊢
      rcases lt_trichotomy c d with hcd | hcd | hcd
      · rw [if_neg (asymm hcd), if_neg (fun he => absurd he.symm (ne_of_lt hcd))]
      · subst hcd
        rw [if_neg (lt_irrefl c), if_pos rfl]
        rw [if_neg (lt_irrefl c), if_pos rfl] at h
        exact ih ds h
      · rw [if_neg (asymm hcd), if_neg (fun he => absurd he.symm (ne_of_lt hcd))] at h
        exact absurd h (by simp)

theorem ltChars_trans : ∀ a b c : List Char,
    ltChars a b = true → ltChars b c = true → ltChars a c = true := by
  intro a
  induction a with
  | nil =>
    intro b c h1 h2
    cases b with
    | nil => exact absurd h1 (by simp [ltChars])
    | cons d ds =>
      cases c with
      | nil => exact absurd h2 (by simp [ltChars])
      | cons e es => simp [ltChars]
  | cons x xs ih =>
    intro b c h1 h2
    cases b with
    | nil => exact absurd h1 (by simp [ltChars])
    | cons y ys =>
      cases c with
      | nil => exact absurd h2 (by simp [ltChars])
      | cons z zs =>
        simp only [ltChars] at h1 h2 ⊢
        rcases lt_trichotomy x y with hxy | hxy | hxy
        · rcases lt_trichotomy y z with hyz | hyz | hyz
          · rw [if_pos (lt_trans hxy hyz)]
          · subst hyz; rw [if_pos hxy]
          · rw [if_neg (asymm hyz),
              if_neg (fun he => absurd he (ne_of_lt hyz).symm)] at h2
            exact absurd h2 (by simp)
        · subst hxy
          rcases lt_trichotomy x z with hxz | hxz | hxz
          · rw [if_pos hxz]
          · subst hxz
            rw [if_neg (lt_irrefl x), if_pos rfl] at h1 h2 ⊢
            exact ih ys zs h1 h2
          · rw [if_neg (asymm hxz),
              if_neg (fun he => absurd he (ne_of_lt hxz).symm)] at h2
            exact absurd h2 (by simp)
        · rw [if_neg (asymm hxy),
            if_neg (fun he => absurd he (ne_of_lt hxy).symm)] at h1
          exact absurd h1 (by simp)

theorem ltChars_conn : ∀ a b : List Char,
    ltChars a b = false → ltChars b a = false → a = b := by
  intro a
  induction a with
  | nil =>
    intro b h1 _
    cases b with
    | nil => rfl
    | cons d ds => exact absurd h1 (by simp [ltChars])
  | cons x xs ih =>
    intro b h1 h2
    cases b with
    | nil => exact absurd h2 (by simp [ltChars])
    | cons y ys =>
      simp only [ltChars] at h1 h2
      rcases lt_trichotomy x y with hxy | hxy | hxy
      · rw [if_pos hxy] at h1
        exact absurd h1 (by simp)
      · subst hxy
        rw [if_neg (lt_irrefl x), if_pos rfl] at h1 h2
        rw [ih ys h1 h2]
      · rw [if_pos hxy] at h2
        exact absurd h2 (by simp)

/-- The sortedness invariant a `std::multimap` maintains: later elements are
never `std::less` than earlier ones. -/
def SortedP (props : List (List Char × List Char)) : Prop :=
  List.Pairwise (fun x y => ltChars y.1 x.1 = false) props

theorem sorted_mmInsert (p : List Char × List Char) :
    ∀ props, SortedP props → SortedP (mmInsert props p) := by
  intro props
  induction props with
  | nil => intro _; simp [mmInsert, SortedP]
  | cons q rest ih =>
    intro hs
    rw [SortedP, List.pairwise_cons] at hs
    simp only [mmInsert]
    by_cases h : ltChars p.1 q.1
    · rw [if_pos h]
      refine List.Pairwise.cons ?_ (List.Pairwise.cons hs.1 hs.2)
      intro y hy
      rcases List.mem_cons.mp hy with h1 | h1
      · subst h1; exact ltChars_asymm _ _ h
      · have hqy := hs.1 y h1
        by_contra hyp
        have hyt : ltChars y.1 p.1 = true := by
          simpa using hyp
        have := ltChars_trans _ _ _ hyt h
        rw [hqy] at this
        exact Bool.noConfusion this
    · rw [if_neg h]
      refine List.Pairwise.cons ?_ (ih hs.2)
      intro y hy
      rcases (mem_mmInsert y p rest).mp hy with h1 | h1
      · exact hs.1 y h1
      · subst h1; simpa using h

/-- In a sorted store, inserting at the upper bound places a duplicated key
after all of its existing occurrences: the filtered run gains the new value
at its end. -/
theorem filter_mmInsert_self (p : List Char × List Char) :
    ∀ props, SortedP props →
      (mmInsert props p).filter (fun q => q.1 == p.1) =
        props.filter (fun q => q.1 == p.1) ++ [p] := by
  intro props
  induction props with
  | nil => simp [mmInsert]
  | cons q rest ih =>
    intro hs
    rw [SortedP, List.pairwise_cons] at hs
    simp only [mmInsert]
    by_cases h : ltChars p.1 q.1
    · rw [if_pos h]
      have hq : (q.1 == p.1) = false := by
        apply beq_eq_false_iff_ne.mpr
        intro he
        rw [← he, ltChars_irrefl q.1] at h
        exact Bool.noConfusion h
      have hrest : rest.filter (fun r => r.1 == p.1) = [] := by
        rw [List.filter_eq_nil_iff]
        intro r hr
        have hle := hs.1 r hr
        intro hrk
        have hrp : r.1 = p.1 := by simpa using hrk
        rw [hrp] at hle
        rw [h] at hle
        exact Bool.noConfusion hle
      simp [List.filter_cons, hq, hrest]
    · rw [if_neg h]
      simp only [List.filter_cons]
      by_cases hqk : (q.1 == p.1) = true
      · simp [hqk, ih hs.2]
      · simp only [Bool.not_eq_true] at hqk
        simp [hqk, ih hs.2]

/-- Insertion leaves the runs of all other keys untouched. -/
theorem filter_mmInsert_other (p : List Char × List Char) (k : List Char)
    (hk : k ≠ p.1) :
    ∀ props, (mmInsert props p).filter (fun q => q.1 == k) =
      props.filter (fun q => q.1 == k) := by
  intro props
  induction props with
  | nil =>
    simp [mmInsert, List.filter_cons, beq_eq_false_iff_ne.mpr (Ne.symm hk)]
  | cons q rest ih =>
    simp only [mmInsert]
    by_cases h : ltChars p.1 q.1
    · rw [if_pos h]
      simp [List.filter_cons, beq_eq_false_iff_ne.mpr (Ne.symm hk)]
    · rw [if_neg h]
      simp [List.filter_cons, ih]

/-- On a sorted prefix whose keys are all `≥ k`, taking while the key equals
`k` is filtering by it. -/
theorem takeWhile_eq_filter_ge (k : List Char) :
    ∀ props, SortedP props → (∀ r ∈ props, ltChars r.1 k = false) →
      props.takeWhile (fun q => q.1 == k) = props.filter (fun q => q.1 == k) := by
  intro props
  induction props with
  | nil => intro _ _; rfl
  | cons r rest ih =>
    intro hs hge
    rw [SortedP, List.pairwise_cons] at hs
    by_cases hr : r.1 = k
    · rw [List.takeWhile_cons_of_pos (by simp [hr]),
        List.filter_cons_of_pos (by simp [hr])]
      rw [ih hs.2 (fun x hx => hge x (List.mem_cons_of_mem r hx))]
    · rw [List.takeWhile_cons_of_neg (by simp [hr]),
        List.filter_cons_of_neg (by simp [hr])]
      have hkr : ltChars k r.1 = true := by
        by_contra hc
        exact hr (ltChars_conn r.1 k (hge r (List.mem_cons_self r rest))
          (by simpa using hc))
      symm
      rw [List.filter_eq_nil_iff]
      intro s hsmem hsk
      have hsr := hs.1 s hsmem
      have hske : s.1 = k := by simpa using hsk
      rw [hske, hkr] at hsr
      exact Bool.noConfusion hsr

/-- `std::less` key equivalence (`¬(a < k) ∧ ¬(k < a)`) is equality. -/
theorem equivKey_eq_beq (a k : List Char) :
    (!ltChars a k && !ltChars k a) = (a == k) := by
  by_cases h : a = k
  · subst h; simp [ltChars_irrefl]
  · have hlt : ltChars a k = true ∨ ltChars k a = true := by
      by_contra hc
      push_neg at hc
      exact h (ltChars_conn a k (by simpa using hc.1) (by simpa using hc.2))
    have hbeq : (a == k) = false := beq_eq_false_iff_ne.mpr h
    rcases hlt with h1 | h1 <;> simp [h1, hbeq]

/-- On a sorted store, the `equal_range` run of `k` is the filter by key
`k`. -/
theorem keyRun_eq_filter (k : List Char) :
    ∀ props, SortedP props →
      keyRun props k = props.filter (fun q => q.1 == k) := by
  intro props
  induction props with
  | nil => intro _; rfl
  | cons q rest ih =>
    intro hs
    rw [SortedP, List.pairwise_cons] at hs
    simp only [keyRun]
    by_cases h1 : ltChars q.1 k
    · rw [List.dropWhile_cons_of_pos (by simpa using h1)]
      have hq : (q.1 == k) = false := by
        apply beq_eq_false_iff_ne.mpr
        intro he
        rw [he, ltChars_irrefl] at h1
        exact Bool.noConfusion h1
      rw [List.filter_cons_of_neg (by simp [hq])]
      have hrest := ih hs.2
      simpa [keyRun] using hrest
    · rw [List.dropWhile_cons_of_neg (by simpa using h1)]
      have hpred : (fun (q : List Char × List Char) =>
          !ltChars q.1 k && !ltChars k q.1) = fun q => q.1 == k := by
        funext r
        exact equivKey_eq_beq r.1 k
      rw [hpred]
      by_cases h2 : q.1 = k
      · rw [List.takeWhile_cons_of_pos (by simp [h2]),
          List.filter_cons_of_pos (by simp [h2])]
        rw [takeWhile_eq_filter_ge k rest hs.2]
        intro r hr
        have hrq := hs.1 r hr
        rw [h2] at hrq
        exact hrq
      · rw [List.takeWhile_cons_of_neg (by simp [h2]),
          List.filter_cons_of_neg (by simp [h2])]
        have hkq : ltChars k q.1 = true := by
          by_contra hc
          exact h2 (ltChars_conn q.1 k (by simpa using h1) (by simpa using hc))
        symm
        rw [List.filter_eq_nil_iff]
        intro s hsmem hsk
        have hsq := hs.1 s hsmem
        have hske : s.1 = k := by simpa using hsk
        rw [hske, hkq] at hsq
        exact Bool.noConfusion hsq

/-- The key/value pairs a list of lines contributes, in file order
(specification side: the parse made order-explicit). -/
def linePairs (lines : List (List Char)) (sep : Char) :
    List (List Char × List Char) :=
  lines.filterMap (fun l =>
    match processLine l sep with
    | .skip => none
    | .oob => none
    | .insert k v => some (k, v))

/-- A completed constructor run is the fold of multimap insertion over the
file-ordered pairs. -/
theorem propsConstructFrom_eq_foldl (sep : Char) :
    ∀ (lines : List (List Char)) (acc store : List (List Char × List Char)),
      propsConstructFrom sep acc lines = some store →
      store = (linePairs lines sep).foldl mmInsert acc := by
  intro lines
  induction lines with
  | nil =>
    intro acc store h
    simp only [propsConstructFrom, Option.some.injEq] at h
    simp [linePairs, ← h]
  | cons l rest ih =>
    intro acc store h
    simp only [propsConstructFrom] at h
    simp only [linePairs, List.filterMap_cons]
    cases hpl : processLine l sep with
    | oob => rw [hpl] at h; exact Option.noConfusion h
    | skip =>
      rw [hpl] at h
      simpa [linePairs] using ih acc store h
    | insert k v =>
      rw [hpl] at h
      simpa [linePairs] using ih (mmInsert acc (k, v)) store h

theorem SortedP_foldl :
    ∀ (ps : List (List Char × List Char)) (acc : List (List Char × List Char)),
      SortedP acc → SortedP (ps.foldl mmInsert acc) := by
  intro ps
  induction ps with
  | nil => intro acc h; exact h
  | cons p rest ih =>
    intro acc h
    exact ih (mmInsert acc p) (sorted_mmInsert p acc h)

/-- Folding the insertions appends each key's values in arrival order. -/
theorem filter_foldl_mmInsert (k : List Char) :
    ∀ (ps : List (List Char × List Char)) (acc : List (List Char × List Char)),
      SortedP acc →
      (ps.foldl mmInsert acc).filter (fun q => q.1 == k) =
        acc.filter (fun q => q.1 == k) ++ ps.filter (fun p => p.1 == k) := by
  intro ps
  induction ps with
  | nil => intro acc _; simp
  | cons p rest ih =>
    intro acc hacc
    simp only [List.foldl_cons]
    rw [ih (mmInsert acc p) (sorted_mmInsert p acc hacc)]
    by_cases hpk : p.1 = k
    · rw [← hpk] at *
      rw [filter_mmInsert_self p acc hacc,
        List.filter_cons_of_pos (by simp)]
      simp
    · rw [filter_mmInsert_other p k (Ne.symm hpk) acc,
        List.filter_cons_of_neg (by simp [hpk])]

/-- Specification-side adjacent deduplication with explicit previous
element: what the `keys()` loop computes after its first push. -/
def dedupFrom (x : List Char) : List (List Char) → List (List Char)
  | [] => []
  | a :: rest => if a = x then dedupFrom x rest else a :: dedupFrom a rest

/-- The `keys()` fold, resumed from a partial result ending in `x`, appends
the adjacent-deduplicated remaining keys. -/
theorem keysOf_foldl_from (props : List (List Char × List Char)) :
    ∀ (res : List (List Char)) (x : List Char), res.getLast? = some x →
      props.foldl (fun res kv =>
        if res.getLast? = some kv.1 then res else res ++ [kv.1]) res =
        res ++ dedupFrom x (props.map (fun q => q.1)) := by
  induction props with
  | nil => intro res x _; simp [dedupFrom]
  | cons kv rest ih =>
    intro res x h
    simp only [List.foldl_cons, List.map_cons, dedupFrom]
    by_cases hx : kv.1 = x
    · rw [if_pos (by rw [h, hx]), if_pos hx]
      exact ih res x h
    · rw [if_neg (fun hc => hx (Option.some.inj (h ▸ hc)).symm), if_neg hx]
      rw [ih (res ++ [kv.1]) kv.1 (List.getLast?_concat res)]
      simp

theorem keysOf_cons (kv : List Char × List Char)
    (rest : List (List Char × List Char)) :
    keysOf (kv :: rest) = kv.1 :: dedupFrom kv.1 (rest.map (fun q => q.1)) := by
  simp only [keysOf, List.foldl_cons]
  rw [if_neg (by simp)]
  simpa using keysOf_foldl_from rest [kv.1] kv.1 (by simp)

theorem mem_dedupFrom : ∀ (ks : List (List Char)) (x y : List Char),
    (y ∈ dedupFrom x ks ∨ y = x) ↔ (y ∈ ks ∨ y = x) := by
  intro ks
  induction ks with
  | nil => intro x y; simp [dedupFrom]
  | cons a rest ih =>
    intro x y
    simp only [dedupFrom]
    by_cases ha : a = x
    · rw [if_pos ha]
      subst ha
      rw [ih a y]
      simp only [List.mem_cons]
      tauto
    · rw [if_neg ha]
      have h2 := ih a y
      simp only [List.mem_cons]
      constructor
      · rintro ((h | h) | h)
        · subst h; tauto
        · have := h2.mp (Or.inl h); tauto
        · tauto
      · rintro ((h | h) | h)
        · subst h; tauto
        · have := h2.mpr (Or.inl h); tauto
        · tauto

/-- Adjacent deduplication of a `≤`-sorted key list headed by `x` yields a
strictly ascending list. -/
theorem dedupFrom_pairwise :
    ∀ (ks : List (List Char)) (x : List Char),
      List.Pairwise (fun a b => ltChars b a = false) (x :: ks) →
      List.Pairwise (fun a b => ltChars a b = true) (x :: dedupFrom x ks) := by
  intro ks
  induction ks with
  | nil => intro x _; simp [dedupFrom]
  | cons a rest ih =>
    intro x hp
    rw [List.pairwise_cons] at hp
    simp only [dedupFrom]
    by_cases ha : a = x
    · rw [if_pos ha]
      apply ih x
      rw [List.pairwise_cons]
      exact ⟨fun y hy => hp.1 y (List.mem_cons_of_mem a hy),
        (List.pairwise_cons.mp hp.2).2⟩
    · rw [if_neg ha]
      have hlt_xa : ltChars x a = true := by
        by_contra hc
        exact ha (ltChars_conn a x (hp.1 a (List.mem_cons_self a rest))
          (by simpa using hc))
      refine List.Pairwise.cons ?_ (ih a hp.2)
      intro y hy
      rcases List.mem_cons.mp hy with h1 | h1
      · subst h1; exact hlt_xa
      · rcases (mem_dedupFrom rest a y).mp (Or.inl h1) with h2 | h2
        · have hyx : ltChars y x = false := hp.1 y (List.mem_cons_of_mem a h2)
          have hya : ltChars y a = false := (List.pairwise_cons.mp hp.2).1 y h2
          by_contra hc
          have hxy_false : ltChars x y = false := by simpa using hc
          have hyeq : y = x := ltChars_conn y x hyx hxy_false
          rw [hyeq, hlt_xa] at hya
          exact Bool.noConfusion hya
        · subst h2; exact hlt_xa

/-- On a sorted store, `keys()` is strictly ascending (in particular each
distinct key appears exactly once). -/
theorem keysOf_pairwise_lt (props : List (List Char × List Char))
    (hs : SortedP props) :
    List.Pairwise (fun a b => ltChars a b = true) (keysOf props) := by
  cases props with
  | nil => simp [keysOf]
  | cons kv rest =>
    rw [keysOf_cons]
    apply dedupFrom_pairwise
    have heq : kv.1 :: rest.map (fun q => q.1) =
        (kv :: rest).map (fun q => q.1) := rfl
    rw [heq, List.pairwise_map]
    exact hs

/-- `keys()` contains exactly the stored keys. -/
theorem keysOf_mem (props : List (List Char × List Char)) (y : List Char) :
    y ∈ keysOf props ↔ ∃ v, (y, v) ∈ props := by
  cases props with
  | nil => simp [keysOf]
  | cons kv rest =>
    rw [keysOf_cons, List.mem_cons]
    have h2 := mem_dedupFrom (rest.map (fun q => q.1)) kv.1 y
    constructor
    · rintro (h | h)
      · subst h; exact ⟨kv.2, by simp⟩
      · rcases h2.mp (Or.inl h) with h3 | h3
        · obtain ⟨q, hq, hqy⟩ := List.mem_map.mp h3
          refine ⟨q.2, ?_⟩
          rw [← hqy]
          simpa using List.mem_cons_of_mem kv hq
        · subst h3; exact ⟨kv.2, by simp⟩
    · rintro ⟨v, hv⟩
      rcases List.mem_cons.mp hv with h | h
      · left; exact congrArg Prod.fst h
      · have hym : y ∈ rest.map (fun q => q.1) :=
          List.mem_map.mpr ⟨(y, v), h, rfl⟩
        rcases h2.mpr (Or.inl hym) with h3 | h3
        · right; exact h3
        · left; exact h3

/-- Counterexample to C8: parsing `"b=1"` then `"a=2"` inserts key `"b"`
first, so first-insertion order is `["b", "a"]`; but `_properties` is a
`std::multimap`, and `keys()` walks it in `std::less` order, returning
`["a", "b"]`. -/
theorem claim_C8_counterexample :
    (propsConstruct [['b', '=', '1'], ['a', '=', '2']] '=').map keysOf =
      some [['a'], ['b']] ∧
    ([['a'], ['b']] : List (List Char)) ≠ [['b'], ['a']] :=
  ⟨rfl, by decide⟩

/-- C8 as amended: `keys()` returns each distinct stored key exactly once,
but in ascending lexicographic (`std::less`) order — the multimap's
iteration order — not in first-insertion order; `values(k)` does return all
of `k`'s values in file order. -/
theorem claim_C8_amended_keys_sorted_values_file_order
    (lines : List (List Char)) (sep : Char)
    (store : List (List Char × List Char))
    (h : propsConstruct lines sep = some store) :
    List.Pairwise (fun a b => ltChars a b = true) (keysOf store) ∧
    (∀ k, k ∈ keysOf store ↔ ∃ v, (k, v) ∈ store) ∧
    (∀ k, valuesOf store k =
      ((linePairs lines sep).filter (fun p => p.1 == k)).map
        (fun p => p.2)) := by
  have hstore : store = (linePairs lines sep).foldl mmInsert [] :=
    propsConstructFrom_eq_foldl sep lines [] store h
  have hsorted : SortedP store := by
    rw [hstore]
    exact SortedP_foldl (linePairs lines sep) [] (by simp [SortedP])
  refine ⟨keysOf_pairwise_lt store hsorted, fun k => keysOf_mem store k, ?_⟩
  intro k
  rw [valuesOf, keyRun_eq_filter k store hsorted, hstore,
    filter_foldl_mmInsert k (linePairs lines sep) [] (by simp [SortedP])]
  simp

/-- Witness: `claim_C8_amended_keys_sorted_values_file_order` applied to the
store of the file `["b=1", "a=2", "b=3"]`: the duplicated key `"b"` keeps
its two values in file order and appears in `keys()`. -/
theorem claim_C8_amended_witness :
    valuesOf [(['a'], ['2']), (['b'], ['1']), (['b'], ['3'])] ['b'] =
      [['1'], ['3']] ∧
    (['b'] : List Char) ∈ keysOf [(['a'], ['2']), (['b'], ['1']), (['b'], ['3'])] := by
  have h := claim_C8_amended_keys_sorted_values_file_order
    [['b', '=', '1'], ['a', '=', '2'], ['b', '=', '3']] '='
    [(['a'], ['2']), (['b'], ['1']), (['b'], ['3'])] rfl
  refine ⟨?_, ?_⟩
  · rw [h.2.2 ['b']]
    rfl
  · exact (h.2.1 ['b']).mpr ⟨['1'], by decide⟩

end FileReader
